import Mathlib

/-!
# Verification of `TrackletReconstruction` (module0_flow, h5flow_modules/combined/tracklet_reco.py)

A shallow embedding of the tracklet reconstruction stage.  Numpy masked arrays
become Lean lists (a boolean mask list runs alongside a value list); machine
floats become `ℚ`; the external library calls (sklearn `DBSCAN.fit`,
skimage `ransac`, sklearn `PCA`, `np.arctan2`, the square root inside
`np.linalg.norm`, and the injected Geometry/RunData/LArData resources) become
oracle function parameters, since their code is not part of this repository.
The control flow of `find_tracks` / `calc_tracks` is translated line by line.

The per-event iteration state carries three *ghost* fields that record what the
algorithm does without influencing any computed value:
  * `log`    — the sequence of track ids handed out (the successive values of
               `current_track_id` at each `track_id[i, mask] = current_track_id`);
  * `calls`  — the argument `xyz[mask]` of every `self.dbscan.fit` invocation;
  * `rcalls` — the argument `xyz[mask]` of every `ransac(...)` invocation.
-/

namespace TrackletReco

/-- Number of `true` entries of a boolean list (`np.sum(mask)` / `np.count_nonzero`). -/
def countTrue (l : List Bool) : Nat :=
  l.foldr (fun b n => if b then n + 1 else n) 0

/-- Boolean-mask indexing `xs[mask]`: keep the entries at `true` positions. -/
def compact {α : Type} (xs : List α) (mask : List Bool) : List α :=
  (xs.zip mask).filterMap (fun p => if p.2 then some p.1 else none)

/-- Masked scatter: `out = np.full(len(mask), d); out[mask] = vs`.  Positions where
`mask` is `true` take successive elements of `vs`; the rest hold `d`. -/
def scatter {α : Type} (d : α) : List Bool → List α → List α
  | [], _ => []
  | true :: ms, v :: vs => v :: scatter d ms vs
  | true :: ms, [] => d :: scatter d ms []
  | false :: ms, vs => d :: scatter d ms vs

/-- Masked fill `xs[mask] = v`: overwrite the `true` positions with `v`. -/
def maskedFill {α : Type} (v : α) : List Bool → List α → List α
  | _, [] => []
  | [], xs => xs
  | b :: ms, x :: xs => (if b then v else x) :: maskedFill v ms xs

/-- The boolean mask `labels == L`. -/
def labelMask (labels : List Int) (L : Int) : List Bool :=
  labels.map (fun t => t == L)

/-- Insert an integer into a strictly sorted list, keeping it sorted without
duplicates (helper for `uniqueInts`). -/
def insertSortedDedup (x : Int) : List Int → List Int
  | [] => [x]
  | y :: ys =>
      if x < y then x :: y :: ys
      else if x = y then y :: ys
      else y :: insertSortedDedup x ys

/-- `np.unique`: the distinct values of a list, in increasing order. -/
def uniqueInts (l : List Int) : List Int :=
  l.foldr insertSortedDedup []

/-- Minimum of a list of rationals (`np.min`; the call sites guarantee nonempty input). -/
def listMin (l : List ℚ) : ℚ :=
  match l with
  | [] => 0
  | x :: xs => xs.foldl min x

/-- Maximum of a list of rationals (`np.max`; the call sites guarantee nonempty input). -/
def listMax (l : List ℚ) : ℚ :=
  match l with
  | [] => 0
  | x :: xs => xs.foldl max x

/-- `np.clip(v, lo, hi) = np.minimum(hi, np.maximum(v, lo))`. -/
def clipQ (v lo hi : ℚ) : ℚ :=
  min hi (max v lo)

/-- One record of the `hits` masked array.  `idMasked` is `hits['id'].mask`
(`true` = the hit slot is invalid). -/
structure Hit where
  idMasked : Bool
  ts : ℚ
  q : ℚ
  iogroup : Nat
  iochannel : Nat
  px : ℚ
  py : ℚ
deriving DecidableEq

/-- A 3D point, one row of the `xyz` array. -/
structure Point3 where
  x : ℚ
  y : ℚ
  z : ℚ
deriving DecidableEq

/-- The injected resources: `resources['LArData'].v_drift`,
`resources['RunData'].crs_ticks` and `resources['Geometry'].get_z_coordinate`. -/
structure GeomRes where
  v_drift : ℚ
  crs_ticks : ℚ
  get_z_coordinate : Nat → Nat → ℚ → ℚ

/-- The configuration parameters of the stage.  `dbscanEps`,
`dbscanMinSamples`, `ransacResidualThreshold` and `ransacMaxTrials` are
consumed only by the clustering / RANSAC library calls, i.e. by the oracle
functions below; the control flow itself reads `ransacMinSamples` and
`maxIterations`. -/
structure Config where
  dbscanEps : ℚ
  dbscanMinSamples : Nat
  ransacMinSamples : Nat
  ransacResidualThreshold : ℚ
  ransacMaxTrials : Nat
  maxIterations : Nat

/-- The two library calls driven by `find_tracks`, abstracted over the point
type `P` (the code never inspects coordinates inside the loop; it only hands
`xyz[mask]` to the libraries).
`dbscanFit ps` is `self.dbscan.fit(ps).labels_` (noise = `-1`);
`ransacFit ps` is the inlier mask returned by `skimage.measure.ransac`.
A fixed random seed fixes `ransacFit` as a function. -/
structure Oracles (P : Type) where
  dbscanFit : List P → List Int
  ransacFit : List P → List Bool

/-- Per-event iteration state of `find_tracks`:
`ids` is the row `track_id[i]`, `elig` the row `iter_mask[i]`, `next` the
variable `current_track_id`; `log`, `calls`, `rcalls` are ghost records (see
the file header). -/
structure TState (P : Type) where
  ids : List Int
  elig : List Bool
  next : Int
  log : List Int
  calls : List (List P)
  rcalls : List (List P)
deriving DecidableEq

/-- `hit_xyz` for one event row: x, y are the hit's local coordinates, z is the
geometry lookup at the drift distance `(hit.ts - t0.ts) * (v_drift * crs_ticks)`. -/
def hit_xyz (R : GeomRes) (row : List Hit) (t0ts : ℚ) : List Point3 :=
  row.map (fun h =>
    let drift_t := h.ts - t0ts
    let drift_d := drift_t * (R.v_drift * R.crs_ticks)
    { x := h.px, y := h.py, z := R.get_z_coordinate h.iogroup h.iochannel drift_d })

/-- `current_track_id += 1; track_id[i, mask] = current_track_id;
iter_mask[i, mask] = False` (and the ghost `log` records the id handed out). -/
def assignNew {P : Type} (mask : List Bool) (s : TState P) : TState P :=
  { s with
    next := s.next + 1
    ids := maskedFill (s.next + 1) mask s.ids
    elig := maskedFill false mask s.elig
    log := s.log ++ [s.next + 1] }

/-- The loop `for id_ in np.unique(final_track_ids)` of `find_tracks`
(lines 188–195): assign a fresh id to each non-noise re-clustered group. -/
def assignFold {P : Type} (fl : List Int) : List Int → TState P → TState P
  | [], s => s
  | L :: Ls, s =>
      assignFold fl Ls (if L = -1 then s else assignNew (labelMask fl L) s)

/-- The body of `for id_ in np.unique(track_ids)` (lines 171–195) for one label
`L`: skip noise-sized clusters, run RANSAC, drop empty inlier sets, re-cluster
the inliers and assign fresh ids to the resulting groups. -/
def processLabel {P : Type} (cfg : Config) (O : Oracles P) (xyz : List P)
    (labels : List Int) (L : Int) (s : TState P) : TState P :=
  let mask := labelMask labels L
  if countTrue mask ≤ cfg.ransacMinSamples then s
  else
    let cpts := compact xyz mask
    let inliers := O.ransacFit cpts
    let mask2 := scatter false mask inliers
    let s1 := { s with rcalls := s.rcalls ++ [cpts] }
    if countTrue mask2 < 1 then s1
    else
      let fpts := compact xyz mask2
      let flabels := scatter (-1) mask2 (O.dbscanFit fpts)
      let s2 := { s1 with calls := s1.calls ++ [fpts] }
      assignFold flabels (uniqueInts flabels) s2

/-- The loop over `np.unique(track_ids)` with the `id_ == -1: continue` filter. -/
def roundFold {P : Type} (cfg : Config) (O : Oracles P) (xyz : List P)
    (labels : List Int) : List Int → TState P → TState P
  | [], s => s
  | L :: Ls, s =>
      roundFold cfg O xyz labels Ls
        (if L = -1 then s else processLabel cfg O xyz labels L s)

/-- One iteration of the `for _ in range(self.max_iterations)` loop: a DBSCAN
pass over the eligible hits, the per-label processing, and the break test
`np.all(track_ids == -1) or not np.any(iter_mask[i])`. -/
def stepRound {P : Type} (cfg : Config) (O : Oracles P) (xyz : List P)
    (s : TState P) : TState P × Bool :=
  let pts := compact xyz s.elig
  let labels := scatter (-1) s.elig (O.dbscanFit pts)
  let s1 := { s with calls := s.calls ++ [pts] }
  let s2 := roundFold cfg O xyz labels (uniqueInts labels) s1
  (s2, (labels.all (fun t => t == -1)) || (s2.elig.all (fun b => !b)))

/-- The state reached after one full round. -/
def stepFn {P : Type} (cfg : Config) (O : Oracles P) (xyz : List P)
    (s : TState P) : TState P :=
  (stepRound cfg O xyz s).1

/-- The labels produced by the DBSCAN pass at the start of a round. -/
def roundLabels {P : Type} (O : Oracles P) (xyz : List P) (s : TState P) : List Int :=
  scatter (-1) s.elig (O.dbscanFit (compact xyz s.elig))

/-- The bounded iteration `for _ in range(self.max_iterations)` with its
end-of-body break. -/
def runRounds {P : Type} (cfg : Config) (O : Oracles P) (xyz : List P) :
    Nat → TState P → TState P
  | 0, s => s
  | fuel + 1, s =>
      let r := stepRound cfg O xyz s
      if r.2 then r.1 else runRounds cfg O xyz fuel r.1

/-- The per-event initial state: `track_id[i] = -1` everywhere,
`iter_mask[i] = ~hits['id'].mask`, `current_track_id = -1`. -/
def initEventState {P : Type} (valid : List Bool) : TState P :=
  { ids := valid.map (fun _ => -1), elig := valid, next := -1,
    log := [], calls := [], rcalls := [] }

/-- Processing of one event `i` of `find_tracks`: skip events with no valid hit
(`if not np.any(iter_mask[i]): continue`), otherwise iterate. -/
def processEvent {P : Type} (cfg : Config) (O : Oracles P) (xyz : List P)
    (valid : List Bool) : TState P :=
  let s0 : TState P := initEventState valid
  if valid.all (fun b => !b) then s0
  else runRounds cfg O xyz cfg.maxIterations s0

/-- The masked array returned by `find_tracks`:
`ma.array(track_id, mask=hits['id'].mask)`. -/
structure MaskedIds where
  ids : List (List Int)
  mask : List (List Bool)
deriving DecidableEq

/-- `find_tracks(hits, t0)`. -/
def find_tracks (cfg : Config) (O : Oracles Point3) (R : GeomRes)
    (hits : List (List Hit)) (t0 : List ℚ) : MaskedIds :=
  let xyz := List.zipWith (fun row t => hit_xyz R row t) hits t0
  { ids := List.zipWith
      (fun row xrow => (processEvent cfg O xrow (row.map (fun h => !h.idMasked))).ids)
      hits xyz
    mask := hits.map (fun row => row.map (fun h => h.idMasked)) }

/-- The library calls of `calc_tracks`, abstracted:
`pcaAxis pts` is `PCA(n_components=1).fit(pts).components_[0]` divided by its
norm (the normalisation involves a square root, hence lives in the oracle);
`atan2q` is `np.arctan2`; `sqrtq` is the square root inside `np.linalg.norm`. -/
structure CalcOracles where
  pcaAxis : List Point3 → Point3
  atan2q : ℚ → ℚ → ℚ
  sqrtq : ℚ → ℚ

/-- One record of the `tracklets` output (the `id` field is filled later by
`run()` from the reserved dataset slice and is uninitialised in `calc_tracks`,
so it is not modelled here). -/
structure Track where
  theta : ℚ
  phi : ℚ
  xp : ℚ
  yp : ℚ
  nhit : Int
  q : ℚ
  ts_start : ℚ
  ts_end : ℚ
  residual : Point3
  length : ℚ
  start : Point3
  finish : Point3
deriving DecidableEq

/-- The member mask of candidate track `j` in one event
(`(track_ids[i] == j) & (~track_ids.mask[i]) & (~hits['id'].mask[i])`). -/
def memberMask (j : Int) (trow : List Int) (mrow : List Bool) (hmrow : List Bool) :
    List Bool :=
  List.zipWith (fun t m => (t.1 == j && !t.2) && !m) (trow.zip mrow) hmrow

/-- Mean of a list of points (`np.mean(xyz[mask], axis=0)`). -/
def meanPoint (pts : List Point3) : Point3 :=
  { x := (pts.map Point3.x).sum / pts.length,
    y := (pts.map Point3.y).sum / pts.length,
    z := (pts.map Point3.z).sum / pts.length }

/-- `do_pca(xyz, mask)`: centroid and unit principal axis of the masked points
(the SVD and normalisation are the `pcaAxis` oracle, applied to the centred
points exactly as in the source). -/
def do_pca (C : CalcOracles) (xyz : List Point3) (mask : List Bool) :
    Point3 × Point3 :=
  let pts := compact xyz mask
  let centroid := meanPoint pts
  let axis := C.pcaAxis (pts.map (fun p =>
    { x := p.x - centroid.x, y := p.y - centroid.y, z := p.z - centroid.z }))
  (centroid, axis)

/-- Signed projection `np.dot(p - centroid, axis)`. -/
def projQ (centroid axis p : Point3) : ℚ :=
  (p.x - centroid.x) * axis.x + (p.y - centroid.y) * axis.y + (p.z - centroid.z) * axis.z

/-- `projected_limits(centroid, axis, xyz)`: the extremal projections along the
axis, clipped componentwise to the bounding box of the points. -/
def projected_limits (centroid axis : Point3) (pts : List Point3) :
    Point3 × Point3 :=
  let s := pts.map (projQ centroid axis)
  let xmin := listMin (pts.map Point3.x)
  let ymin := listMin (pts.map Point3.y)
  let zmin := listMin (pts.map Point3.z)
  let xmax := listMax (pts.map Point3.x)
  let ymax := listMax (pts.map Point3.y)
  let zmax := listMax (pts.map Point3.z)
  let rmax : Point3 :=
    { x := clipQ (centroid.x + axis.x * listMax s) xmin xmax,
      y := clipQ (centroid.y + axis.y * listMax s) ymin ymax,
      z := clipQ (centroid.z + axis.z * listMax s) zmin zmax }
  let rmin : Point3 :=
    { x := clipQ (centroid.x + axis.x * listMin s) xmin xmax,
      y := clipQ (centroid.y + axis.y * listMin s) ymin ymax,
      z := clipQ (centroid.z + axis.z * listMin s) zmin zmax }
  (rmin, rmax)

/-- `track_residual(centroid, axis, xyz)`: mean absolute componentwise
deviation of the points from the fitted line. -/
def track_residual (centroid axis : Point3) (pts : List Point3) : Point3 :=
  let res := pts.map (fun p =>
    let s := projQ centroid axis p
    ({ x := |p.x - (centroid.x + s * axis.x)|,
       y := |p.y - (centroid.y + s * axis.y)|,
       z := |p.z - (centroid.z + s * axis.z)| } : Point3))
  meanPoint res

/-- `theta(axis) = np.arctan2(np.linalg.norm(axis[:2]), axis[-1])`. -/
def theta (C : CalcOracles) (axis : Point3) : ℚ :=
  C.atan2q (C.sqrtq (axis.x * axis.x + axis.y * axis.y)) axis.z

/-- `phi(axis) = np.arctan2(axis[1], axis[0])`. -/
def phi (C : CalcOracles) (axis : Point3) : ℚ :=
  C.atan2q axis.y axis.x

/-- `xyp(axis, centroid)`: for `axis[-1] == 0` return the centroid's (x, y);
otherwise walk along the axis by `s = -centroid[-1] / axis[-1]` and return the
(x, y) of the reached point. -/
def xyp (axis centroid : Point3) : ℚ × ℚ :=
  if axis.z = 0 then (centroid.x, centroid.y)
  else
    let s := -centroid.z / axis.z
    (centroid.x + axis.x * s, centroid.y + axis.y * s)

/-- Euclidean norm of `b - a`, via the square-root oracle
(`np.linalg.norm(r_max - r_min)`). -/
def distQ (C : CalcOracles) (a b : Point3) : ℚ :=
  C.sqrtq ((b.x - a.x) * (b.x - a.x) + (b.y - a.y) * (b.y - a.y) +
    (b.z - a.z) * (b.z - a.z))

/-- The unmasked entries of the `track_ids` masked array. -/
def unmaskedVals (tids : List (List Int)) (tmask : List (List Bool)) : List Int :=
  (List.zipWith (fun r m => compact r (m.map (fun b => !b))) tids tmask).flatten

/-- `n_tracks = np.clip(track_ids.max() + 1, 1, np.inf).astype(int)` when any
entry is unmasked, else `1`. -/
def nTracksOf (tids : List (List Int)) (tmask : List (List Bool)) : Nat :=
  match unmaskedVals tids tmask with
  | [] => 1
  | v :: vs => (max 1 (vs.foldl max v + 1)).toNat

/-- The body of the double loop of `calc_tracks` for event row data and a
candidate id `j`: `none` models a masked output slot (`tracks_mask[i,j]`
left `True`). -/
def mkTrack (C : CalcOracles) (hrow : List Hit) (xrow : List Point3)
    (trow : List Int) (mrow : List Bool) (j : Nat) : Option Track :=
  let hmrow := hrow.map (fun h => h.idMasked)
  let mask := memberMask (Int.ofNat j) trow mrow hmrow
  if countTrue mask < 2 then none
  else
    let pca := do_pca C xrow mask
    let centroid := pca.1
    let axis := pca.2
    let pts := compact xrow mask
    let lims := projected_limits centroid axis pts
    let r_min := lims.1
    let r_max := lims.2
    let residual := track_residual centroid axis pts
    let xy := xyp axis centroid
    let mhits := compact hrow mask
    some
      { theta := theta C axis, phi := phi C axis,
        xp := xy.1, yp := xy.2,
        nhit := (countTrue mask : Int),
        q := (mhits.map Hit.q).sum,
        ts_start := listMin (mhits.map Hit.ts),
        ts_end := listMax (mhits.map Hit.ts),
        residual := residual,
        length := distQ C r_min r_max,
        start := r_min, finish := r_max }

/-- `calc_tracks(hits, t0, track_ids)`: the `(N, n_tracks)` masked record
array, one `Option Track` per slot. -/
def calc_tracks (C : CalcOracles) (R : GeomRes) (hits : List (List Hit))
    (t0 : List ℚ) (tids : List (List Int)) (tmask : List (List Bool)) :
    List (List (Option Track)) :=
  let nT := nTracksOf tids tmask
  List.zipWith
    (fun (ht : List Hit × ℚ) (tm : List Int × List Bool) =>
      let xrow := hit_xyz R ht.1 ht.2
      (List.range nT).map (fun j => mkTrack C ht.1 xrow tm.1 tm.2 j))
    (hits.zip t0) (tids.zip tmask)

/-- The reconstruction pipeline of `run()` (lines 111–112): `find_tracks`
followed by `calc_tracks` on its output. -/
def reconstruct (cfg : Config) (O : Oracles Point3) (C : CalcOracles)
    (R : GeomRes) (hits : List (List Hit)) (t0 : List ℚ) :
    MaskedIds × List (List (Option Track)) :=
  let tids := find_tracks cfg O R hits t0
  (tids, calc_tracks C R hits t0 tids.ids tids.mask)

/-- An abstract projected point used to reason about non-finite coordinates.
`find_tracks` never inspects coordinate values (they flow opaquely into the
clustering / RANSAC library calls), which is why the extractor above is
polymorphic in the point type; instantiating it at `ProjPoint` marks whether a
projected 3D point carries a non-finite component (NaN / inf from the geometry
lookup). -/
inductive ProjPoint where
  | finPt : ProjPoint
  | nonFinPt : ProjPoint
deriving DecidableEq

/-! ## Positional access and basic lemmas -/

/-- Structural positional lookup (the index view of a numpy row). -/
def nth {α : Type} : List α → Nat → Option α
  | [], _ => none
  | x :: _, 0 => some x
  | _ :: xs, k + 1 => nth xs k

@[simp]
theorem nth_nil {α : Type} (k : Nat) : nth ([] : List α) k = none := rfl

@[simp]
theorem nth_cons_zero {α : Type} (x : α) (xs : List α) : nth (x :: xs) 0 = some x := rfl

@[simp]
theorem nth_cons_succ {α : Type} (x : α) (xs : List α) (k : Nat) :
    nth (x :: xs) (k + 1) = nth xs k := rfl

theorem nth_map {α β : Type} (f : α → β) (l : List α) (k : Nat) :
    nth (l.map f) k = (nth l k).map f := by
  induction l generalizing k with
  | nil => simp
  | cons x xs ih => cases k <;> simp [ih]

theorem nth_eq_none_iff {α : Type} (l : List α) (k : Nat) :
    nth l k = none ↔ l.length ≤ k := by
  induction l generalizing k with
  | nil => simp
  | cons x xs ih => cases k <;> simp [ih, Nat.succ_le_succ_iff]

theorem lt_length_of_nth {α : Type} {l : List α} {k : Nat} {a : α}
    (h : nth l k = some a) : k < l.length := by
  by_contra hk
  push_neg at hk
  have := (nth_eq_none_iff l k).2 hk
  simp [h] at this

theorem mem_of_nth {α : Type} {l : List α} {k : Nat} {a : α}
    (h : nth l k = some a) : a ∈ l := by
  induction l generalizing k with
  | nil => simp at h
  | cons x xs ih =>
      cases k with
      | zero => simp at h; simp [h]
      | succ k => simp at h; exact List.mem_cons_of_mem x (ih h)

theorem nth_of_mem {α : Type} {l : List α} {a : α} (h : a ∈ l) :
    ∃ k, nth l k = some a := by
  induction l with
  | nil => simp at h
  | cons x xs ih =>
      rcases List.mem_cons.1 h with rfl | hx
      · exact ⟨0, rfl⟩
      · obtain ⟨k, hk⟩ := ih hx
        exact ⟨k + 1, hk⟩

theorem nth_zipWith {α β γ : Type} (f : α → β → γ) {as : List α} {bs : List β}
    {k : Nat} {a : α} {b : β} (ha : nth as k = some a) (hb : nth bs k = some b) :
    nth (List.zipWith f as bs) k = some (f a b) := by
  induction as generalizing bs k with
  | nil => simp at ha
  | cons x xs ih =>
      cases bs with
      | nil => simp at hb
      | cons y ys =>
          cases k with
          | zero => simp at ha hb; simp [ha, hb]
          | succ k => simp at ha hb; simpa using ih ha hb

theorem nth_zipWith_inv {α β γ : Type} {f : α → β → γ} {as : List α}
    {bs : List β} {k : Nat} {c : γ}
    (h : nth (List.zipWith f as bs) k = some c) :
    ∃ a b, nth as k = some a ∧ nth bs k = some b ∧ c = f a b := by
  induction as generalizing bs k with
  | nil => simp at h
  | cons x xs ih =>
      cases bs with
      | nil => simp at h
      | cons y ys =>
          cases k with
          | zero =>
              simp at h
              exact ⟨x, y, rfl, rfl, h.symm⟩
          | succ k =>
              simp at h
              obtain ⟨a, b, h1, h2, h3⟩ := ih h
              exact ⟨a, b, h1, h2, h3⟩

/-! ## Lemmas about `scatter`, `maskedFill`, `labelMask`, `countTrue`, `compact` -/

theorem scatter_length {α : Type} (d : α) (ms : List Bool) (vs : List α) :
    (scatter d ms vs).length = ms.length := by
  induction ms generalizing vs with
  | nil => simp [scatter]
  | cons b ms ih =>
      cases b with
      | false => simp [scatter, ih]
      | true => cases vs <;> simp [scatter, ih]

theorem nth_scatter_false {α : Type} {d : α} {ms : List Bool} {u : List α}
    {k : Nat} (h : nth ms k = some false) :
    nth (scatter d ms u) k = some d := by
  induction ms generalizing u k with
  | nil => simp at h
  | cons b ms ih =>
      cases k with
      | zero =>
          simp at h
          subst h
          simp [scatter]
      | succ k =>
          simp at h
          cases b with
          | false => simpa [scatter] using ih (u := u) h
          | true => cases u <;> simpa [scatter] using ih h

theorem nth_scatter_none {α : Type} {d : α} {ms : List Bool} {u : List α}
    {k : Nat} (h : nth ms k = none) :
    nth (scatter d ms u) k = none := by
  rw [nth_eq_none_iff] at h ⊢
  simpa [scatter_length] using h

theorem nth_scatter_inv {α : Type} {d : α} {ms : List Bool} {u : List α}
    {k : Nat} {w : α} (h : nth (scatter d ms u) k = some w) :
    w = d ∨ nth ms k = some true := by
  induction ms generalizing u k with
  | nil => simp [scatter] at h
  | cons b ms ih =>
      cases b with
      | false =>
          cases k with
          | zero => simp [scatter] at h; exact Or.inl h.symm
          | succ k =>
              simp [scatter] at h
              rcases ih h with h' | h' <;> simp [h']
      | true =>
          cases k with
          | zero => simp
          | succ k =>
              cases u with
              | nil =>
                  simp [scatter] at h
                  rcases ih h with h' | h' <;> simp [h']
              | cons v vs =>
                  simp [scatter] at h
                  rcases ih h with h' | h' <;> simp [h']

theorem maskedFill_length {α : Type} (v : α) (ms : List Bool) (xs : List α) :
    (maskedFill v ms xs).length = xs.length := by
  induction xs generalizing ms with
  | nil => cases ms <;> simp [maskedFill]
  | cons x xs ih =>
      cases ms with
      | nil => simp [maskedFill]
      | cons b ms => simp [maskedFill, ih]

theorem nth_maskedFill_skip {α : Type} {v : α} {ms : List Bool} {xs : List α}
    {k : Nat} (h : nth ms k = some false ∨ nth ms k = none) :
    nth (maskedFill v ms xs) k = nth xs k := by
  induction xs generalizing ms k with
  | nil => cases ms <;> simp [maskedFill]
  | cons x xs ih =>
      cases ms with
      | nil => simp [maskedFill]
      | cons b ms =>
          cases k with
          | zero =>
              simp at h
              simp [maskedFill, h]
          | succ k =>
              simp at h
              simpa [maskedFill] using ih h

theorem nth_maskedFill_true {α : Type} {v : α} {ms : List Bool} {xs : List α}
    {k : Nat} (h : nth ms k = some true) (hk : k < xs.length) :
    nth (maskedFill v ms xs) k = some v := by
  induction xs generalizing ms k with
  | nil => simp at hk
  | cons x xs ih =>
      cases ms with
      | nil => simp at h
      | cons b ms =>
          cases k with
          | zero =>
              simp at h
              subst h
              simp [maskedFill]
          | succ k =>
              simp at h hk
              simpa [maskedFill] using ih h (by omega)

theorem nth_labelMask (labels : List Int) (L : Int) (k : Nat) :
    nth (labelMask labels L) k = (nth labels k).map (fun t => t == L) :=
  nth_map _ labels k

theorem nth_labelMask_true {labels : List Int} {L : Int} {k : Nat}
    (h : nth (labelMask labels L) k = some true) : nth labels k = some L := by
  rw [nth_labelMask] at h
  cases hl : nth labels k with
  | none => simp [hl] at h
  | some t =>
      simp [hl] at h
      simp [hl, h]

theorem nth_labelMask_of_ne {labels : List Int} {L : Int} {k : Nat}
    (h : nth labels k ≠ some L) :
    nth (labelMask labels L) k = some false ∨ nth (labelMask labels L) k = none := by
  rw [nth_labelMask]
  cases hl : nth labels k with
  | none => simp
  | some t =>
      left
      have ht : t ≠ L := fun he => h (by rw [hl, he])
      simp [ht]

@[simp]
theorem countTrue_nil : countTrue [] = 0 := rfl

@[simp]
theorem countTrue_cons (b : Bool) (l : List Bool) :
    countTrue (b :: l) = if b then countTrue l + 1 else countTrue l := rfl

theorem mem_compact_of_nth {α : Type} {xs : List α} {mask : List Bool} {k : Nat}
    {p : α} (hx : nth xs k = some p) (hm : nth mask k = some true) :
    p ∈ compact xs mask := by
  induction xs generalizing mask k with
  | nil => simp at hx
  | cons x xs ih =>
      cases mask with
      | nil => simp at hm
      | cons b ms =>
          cases k with
          | zero =>
              simp at hx hm
              subst hx; subst hm
              simp [compact]
          | succ k =>
              simp at hx hm
              have := ih hx hm
              simp only [compact, List.zip_cons_cons, List.filterMap_cons]
              cases b <;> simp [compact] at this ⊢ <;> simp [this]

theorem insertSortedDedup_mem {x y : Int} {l : List Int}
    (h : y ∈ insertSortedDedup x l) : y = x ∨ y ∈ l := by
  induction l with
  | nil => simpa [insertSortedDedup] using h
  | cons z zs ih =>
      rw [insertSortedDedup] at h
      by_cases h1 : x < z
      · rw [if_pos h1] at h
        rcases List.mem_cons.1 h with rfl | h'
        · exact Or.inl rfl
        · exact Or.inr h'
      · rw [if_neg h1] at h
        by_cases h2 : x = z
        · rw [if_pos h2] at h
          exact Or.inr h
        · rw [if_neg h2] at h
          rcases List.mem_cons.1 h with rfl | h'
          · exact Or.inr (List.mem_cons.2 (Or.inl rfl))
          · rcases ih h' with h'' | h''
            · exact Or.inl h''
            · exact Or.inr (List.mem_cons.2 (Or.inr h''))

theorem insertSortedDedup_pairwise {x : Int} {l : List Int}
    (h : l.Pairwise (· < ·)) : (insertSortedDedup x l).Pairwise (· < ·) := by
  induction l with
  | nil => simp [insertSortedDedup]
  | cons z zs ih =>
      rw [List.pairwise_cons] at h
      rw [insertSortedDedup]
      by_cases h1 : x < z
      · rw [if_pos h1]
        refine List.Pairwise.cons ?_ (List.Pairwise.cons h.1 h.2)
        intro y hy
        rcases List.mem_cons.1 hy with rfl | hy
        · exact h1
        · exact lt_trans h1 (h.1 y hy)
      · rw [if_neg h1]
        by_cases h2 : x = z
        · rw [if_pos h2]
          exact List.Pairwise.cons h.1 h.2
        · rw [if_neg h2]
          refine List.Pairwise.cons ?_ (ih h.2)
          intro y hy
          rcases insertSortedDedup_mem hy with rfl | hy
          · omega
          · exact h.1 y hy

theorem uniqueInts_pairwise_lt (l : List Int) :
    (uniqueInts l).Pairwise (· < ·) := by
  induction l with
  | nil => simp [uniqueInts]
  | cons x xs ih => exact insertSortedDedup_pairwise ih

theorem uniqueInts_pairwise_ne (l : List Int) :
    (uniqueInts l).Pairwise (· ≠ ·) :=
  (uniqueInts_pairwise_lt l).imp (fun h => ne_of_lt h)

theorem mem_of_mem_uniqueInts {y : Int} {l : List Int}
    (h : y ∈ uniqueInts l) : y ∈ l := by
  induction l with
  | nil => simp [uniqueInts] at h
  | cons x xs ih =>
      have h' : y ∈ insertSortedDedup x (uniqueInts xs) := h
      rcases insertSortedDedup_mem h' with rfl | h2
      · simp
      · simp [ih h2]

/-! ## Per-position behaviour of the assignment primitives -/

theorem assignNew_rcalls {P : Type} (mask : List Bool) (s : TState P) :
    (assignNew mask s).rcalls = s.rcalls := rfl

theorem assignNew_calls {P : Type} (mask : List Bool) (s : TState P) :
    (assignNew mask s).calls = s.calls := rfl

theorem assignNew_ids_length {P : Type} (mask : List Bool) (s : TState P) :
    (assignNew mask s).ids.length = s.ids.length := maskedFill_length _ _ _

theorem assignNew_elig_length {P : Type} (mask : List Bool) (s : TState P) :
    (assignNew mask s).elig.length = s.elig.length := maskedFill_length _ _ _

theorem assignNew_untouched {P : Type} {m : List Bool} {s : TState P} {k : Nat}
    (h : nth m k = some false ∨ nth m k = none) :
    nth (assignNew m s).ids k = nth s.ids k ∧
      nth (assignNew m s).elig k = nth s.elig k :=
  ⟨nth_maskedFill_skip h, nth_maskedFill_skip h⟩

theorem assignFold_rcalls {P : Type} (fl Ls : List Int) (s : TState P) :
    (assignFold fl Ls s).rcalls = s.rcalls := by
  induction Ls generalizing s with
  | nil => rfl
  | cons L Ls ih =>
      rw [assignFold]
      by_cases hL : L = -1 <;> simp [hL, ih, assignNew_rcalls]

theorem assignFold_calls {P : Type} (fl Ls : List Int) (s : TState P) :
    (assignFold fl Ls s).calls = s.calls := by
  induction Ls generalizing s with
  | nil => rfl
  | cons L Ls ih =>
      rw [assignFold]
      by_cases hL : L = -1 <;> simp [hL, ih, assignNew_calls]

theorem assignFold_ids_length {P : Type} (fl Ls : List Int) (s : TState P) :
    (assignFold fl Ls s).ids.length = s.ids.length := by
  induction Ls generalizing s with
  | nil => rfl
  | cons L Ls ih =>
      rw [assignFold]
      by_cases hL : L = -1 <;> simp [hL, ih, assignNew_ids_length]

theorem assignFold_elig_length {P : Type} (fl Ls : List Int) (s : TState P) :
    (assignFold fl Ls s).elig.length = s.elig.length := by
  induction Ls generalizing s with
  | nil => rfl
  | cons L Ls ih =>
      rw [assignFold]
      by_cases hL : L = -1 <;> simp [hL, ih, assignNew_elig_length]

/-- A position whose label never occurs among the processed sub-labels is left
untouched by the assignment loop. -/
theorem assignFold_untouched {P : Type} {fl Ls : List Int} {s : TState P} {k : Nat}
    (h : ∀ L ∈ Ls, L ≠ -1 → nth fl k ≠ some L) :
    nth (assignFold fl Ls s).ids k = nth s.ids k ∧
      nth (assignFold fl Ls s).elig k = nth s.elig k := by
  induction Ls generalizing s with
  | nil => exact ⟨rfl, rfl⟩
  | cons L Ls ih =>
      rw [assignFold]
      by_cases hL : L = -1
      · simpa [hL] using ih (fun L' hL' => h L' (List.mem_cons.2 (Or.inr hL')))
      · simp only [hL, if_false]
        have hmask := nth_labelMask_of_ne (h L (List.mem_cons.2 (Or.inl rfl)) hL)
        have h1 := assignNew_untouched (m := labelMask fl L) (s := s) (k := k) hmask
        have h2 := ih (s := assignNew (labelMask fl L) s)
          (fun L' hL' => h L' (List.mem_cons.2 (Or.inr hL')))
        exact ⟨h2.1.trans h1.1, h2.2.trans h1.2⟩

theorem processLabel_ids_length {P : Type} (cfg : Config) (O : Oracles P)
    (xyz : List P) (labels : List Int) (L : Int) (s : TState P) :
    (processLabel cfg O xyz labels L s).ids.length = s.ids.length := by
  rw [processLabel]
  split
  · rfl
  · dsimp only
    split
    · rfl
    · exact assignFold_ids_length _ _ _

theorem processLabel_elig_length {P : Type} (cfg : Config) (O : Oracles P)
    (xyz : List P) (labels : List Int) (L : Int) (s : TState P) :
    (processLabel cfg O xyz labels L s).elig.length = s.elig.length := by
  rw [processLabel]
  split
  · rfl
  · dsimp only
    split
    · rfl
    · exact assignFold_elig_length _ _ _

/-- A position whose round label differs from `L` is left untouched by the
processing of label `L` (the RANSAC mask, the re-clustering labels and every
assignment mask it produces are all `false` there). -/
theorem processLabel_untouched {P : Type} {cfg : Config} {O : Oracles P}
    {xyz : List P} {labels : List Int} {L : Int} {s : TState P} {k : Nat}
    (h : nth labels k ≠ some L) :
    nth (processLabel cfg O xyz labels L s).ids k = nth s.ids k ∧
      nth (processLabel cfg O xyz labels L s).elig k = nth s.elig k := by
  rw [processLabel]
  split
  · exact ⟨rfl, rfl⟩
  · dsimp only
    split
    · exact ⟨rfl, rfl⟩
    · refine assignFold_untouched ?_
      intro L2 _ hL2ne hfl
      have hmask := nth_labelMask_of_ne h
      have hmask2 : nth (scatter false (labelMask labels L)
          (O.ransacFit (compact xyz (labelMask labels L)))) k = some false ∨
          nth (scatter false (labelMask labels L)
          (O.ransacFit (compact xyz (labelMask labels L)))) k = none := by
        rcases hmask with hm | hm
        · rcases nth_scatter_inv (d := false)
            (u := O.ransacFit (compact xyz (labelMask labels L)))
            (k := k) (w := false) (nth_scatter_false hm) with h' | h'
          · exact Or.inl (nth_scatter_false hm)
          · rw [hm] at h'; simp at h'
        · exact Or.inr (nth_scatter_none hm)
      rcases hmask2 with hm2 | hm2
      · have := nth_scatter_false (d := (-1 : Int))
          (u := O.dbscanFit (compact xyz (scatter false (labelMask labels L)
            (O.ransacFit (compact xyz (labelMask labels L)))))) hm2
        rw [hfl] at this
        exact hL2ne (by simpa using this)
      · have := nth_scatter_none (d := (-1 : Int))
          (u := O.dbscanFit (compact xyz (scatter false (labelMask labels L)
            (O.ransacFit (compact xyz (labelMask labels L)))))) hm2
        rw [hfl] at this
        simp at this

theorem roundFold_ids_length {P : Type} (cfg : Config) (O : Oracles P)
    (xyz : List P) (labels Ls : List Int) (s : TState P) :
    (roundFold cfg O xyz labels Ls s).ids.length = s.ids.length := by
  induction Ls generalizing s with
  | nil => rfl
  | cons L Ls ih =>
      rw [roundFold]
      by_cases hL : L = -1 <;> simp [hL, ih, processLabel_ids_length]

theorem roundFold_elig_length {P : Type} (cfg : Config) (O : Oracles P)
    (xyz : List P) (labels Ls : List Int) (s : TState P) :
    (roundFold cfg O xyz labels Ls s).elig.length = s.elig.length := by
  induction Ls generalizing s with
  | nil => rfl
  | cons L Ls ih =>
      rw [roundFold]
      by_cases hL : L = -1 <;> simp [hL, ih, processLabel_elig_length]

/-- A position whose round label occurs in none of the processed labels is left
untouched by the whole per-label loop. -/
theorem roundFold_untouched {P : Type} {cfg : Config} {O : Oracles P}
    {xyz : List P} {labels Ls : List Int} {s : TState P} {k : Nat}
    (h : ∀ L ∈ Ls, L ≠ -1 → nth labels k ≠ some L) :
    nth (roundFold cfg O xyz labels Ls s).ids k = nth s.ids k ∧
      nth (roundFold cfg O xyz labels Ls s).elig k = nth s.elig k := by
  induction Ls generalizing s with
  | nil => exact ⟨rfl, rfl⟩
  | cons L Ls ih =>
      rw [roundFold]
      by_cases hL : L = -1
      · simpa [hL] using ih (fun L' hL' => h L' (List.mem_cons.2 (Or.inr hL')))
      · simp only [hL, if_false]
        have h1 : nth (processLabel cfg O xyz labels L s).ids k = nth s.ids k ∧
            nth (processLabel cfg O xyz labels L s).elig k = nth s.elig k :=
          processLabel_untouched (h L (List.mem_cons.2 (Or.inl rfl)) hL)
        have h2 := ih (s := processLabel cfg O xyz labels L s)
          (fun L' hL' => h L' (List.mem_cons.2 (Or.inr hL')))
        exact ⟨h2.1.trans h1.1, h2.2.trans h1.2⟩

/-- A position that is not eligible at the start of a round gets round label
`-1` and is therefore untouched by the whole round. -/
theorem stepFn_untouched {P : Type} {cfg : Config} {O : Oracles P}
    {xyz : List P} {s : TState P} {k : Nat}
    (h : nth s.elig k = some false ∨ nth s.elig k = none) :
    nth (stepFn cfg O xyz s).ids k = nth s.ids k ∧
      nth (stepFn cfg O xyz s).elig k = nth s.elig k := by
  have hlab : nth (scatter (-1 : Int) s.elig (O.dbscanFit (compact xyz s.elig))) k
      = some (-1) ∨
      nth (scatter (-1 : Int) s.elig (O.dbscanFit (compact xyz s.elig))) k = none := by
    rcases h with h | h
    · exact Or.inl (nth_scatter_false h)
    · exact Or.inr (nth_scatter_none h)
  rw [stepFn, stepRound]
  refine roundFold_untouched ?_
  intro L _ hLne hk
  rcases hlab with h' | h'
  · rw [hk] at h'
    exact hLne (by simpa using h')
  · rw [hk] at h'
    simp at h'

theorem stepFn_ids_length {P : Type} (cfg : Config) (O : Oracles P)
    (xyz : List P) (s : TState P) :
    (stepFn cfg O xyz s).ids.length = s.ids.length :=
  roundFold_ids_length _ _ _ _ _ _

theorem stepFn_elig_length {P : Type} (cfg : Config) (O : Oracles P)
    (xyz : List P) (s : TState P) :
    (stepFn cfg O xyz s).elig.length = s.elig.length :=
  roundFold_elig_length _ _ _ _ _ _

/-! ## The reachable-state invariant -/

/-- Every assigned position (id ≠ -1) has been removed from the eligible set. -/
def InvA {P : Type} (s : TState P) : Prop :=
  ∀ k v, nth s.ids k = some v → v ≠ -1 → nth s.elig k ≠ some true

/-- Invariant of all states reached by `find_tracks`: assigned positions are
ineligible, and the id row and the eligibility row have the same length. -/
def Sane {P : Type} (s : TState P) : Prop :=
  InvA s ∧ s.ids.length = s.elig.length

theorem initEventState_sane {P : Type} (valid : List Bool) :
    Sane (initEventState (P := P) valid) := by
  constructor
  · intro k v hv hne
    rw [initEventState] at hv
    simp only [nth_map] at hv
    cases hvk : nth valid k with
    | none => rw [hvk] at hv; simp at hv
    | some b =>
        rw [hvk] at hv
        simp at hv
        exact absurd hv.symm hne
  · simp [initEventState]

theorem assignNew_sane {P : Type} {mask : List Bool} {s : TState P}
    (h : Sane s) : Sane (assignNew mask s) := by
  refine ⟨?_, ?_⟩
  · intro k v hv hne
    cases hm : nth mask k with
    | none =>
        have hu := assignNew_untouched (m := mask) (s := s) (k := k) (Or.inr hm)
        rw [hu.1] at hv
        rw [hu.2]
        exact h.1 k v hv hne
    | some b =>
        cases b with
        | false =>
            have hu := assignNew_untouched (m := mask) (s := s) (k := k) (Or.inl hm)
            rw [hu.1] at hv
            rw [hu.2]
            exact h.1 k v hv hne
        | true =>
            have hk : k < s.ids.length := by
              have := lt_length_of_nth hv
              rwa [assignNew_ids_length] at this
            have : nth (assignNew mask s).elig k = some false := by
              rw [assignNew]
              exact nth_maskedFill_true hm (by rw [← h.2]; exact hk)
            rw [this]
            simp
  · rw [assignNew_ids_length, assignNew_elig_length]
    exact h.2

theorem assignFold_sane {P : Type} {fl Ls : List Int} {s : TState P}
    (h : Sane s) : Sane (assignFold fl Ls s) := by
  induction Ls generalizing s with
  | nil => exact h
  | cons L Ls ih =>
      rw [assignFold]
      by_cases hL : L = -1
      · simpa [hL] using ih h
      · simp only [hL, if_false]
        exact ih (assignNew_sane h)

theorem processLabel_sane {P : Type} {cfg : Config} {O : Oracles P}
    {xyz : List P} {labels : List Int} {L : Int} {s : TState P}
    (h : Sane s) : Sane (processLabel cfg O xyz labels L s) := by
  rw [processLabel]
  split
  · exact h
  · dsimp only
    split
    · exact ⟨h.1, h.2⟩
    · exact assignFold_sane ⟨h.1, h.2⟩

theorem roundFold_sane {P : Type} {cfg : Config} {O : Oracles P}
    {xyz : List P} {labels Ls : List Int} {s : TState P}
    (h : Sane s) : Sane (roundFold cfg O xyz labels Ls s) := by
  induction Ls generalizing s with
  | nil => exact h
  | cons L Ls ih =>
      rw [roundFold]
      by_cases hL : L = -1
      · simpa [hL] using ih h
      · simp only [hL, if_false]
        exact ih (processLabel_sane h)

theorem stepFn_sane {P : Type} {cfg : Config} {O : Oracles P} {xyz : List P}
    {s : TState P} (h : Sane s) : Sane (stepFn cfg O xyz s) :=
  roundFold_sane ⟨h.1, h.2⟩

/-- An assigned position is ineligible, hence labelled noise by the round
DBSCAN pass, hence untouched: its id survives the round unchanged. -/
theorem stepFn_preserves_assigned {P : Type} {cfg : Config} {O : Oracles P}
    {xyz : List P} {s : TState P} {k : Nat} {v : Int}
    (hs : Sane s) (hv : nth s.ids k = some v) (hne : v ≠ -1) :
    nth (stepFn cfg O xyz s).ids k = some v := by
  have helig : nth s.elig k ≠ some true := hs.1 k v hv hne
  have hcase : nth s.elig k = some false ∨ nth s.elig k = none := by
    cases he : nth s.elig k with
    | none => exact Or.inr rfl
    | some b =>
        cases b with
        | false => exact Or.inl rfl
        | true => exact absurd he helig
  rw [(stepFn_untouched hcase).1]
  exact hv

theorem runRounds_preserves_assigned {P : Type} {cfg : Config} {O : Oracles P}
    {xyz : List P} (fuel : Nat) {s : TState P} {k : Nat} {v : Int}
    (hs : Sane s) (hv : nth s.ids k = some v) (hne : v ≠ -1) :
    nth (runRounds cfg O xyz fuel s).ids k = some v := by
  induction fuel generalizing s with
  | zero => exact hv
  | succ n ih =>
      rw [runRounds]
      split
      · exact stepFn_preserves_assigned hs hv hne
      · exact ih (stepFn_sane hs) (stepFn_preserves_assigned hs hv hne)

/-! ## Every id handed out stays attached to some position -/

theorem nth_labelMask_self {fl : List Int} {L : Int} {k : Nat}
    (h : nth fl k = some L) : nth (labelMask fl L) k = some true := by
  rw [nth_labelMask, h]
  simp

theorem uniqueInts_nth_exists {fl : List Int} {n : Nat} (hfl : fl.length = n) :
    ∀ L ∈ uniqueInts fl, L ≠ -1 → ∃ k, nth fl k = some L ∧ k < n := by
  intro L hL _
  obtain ⟨k, hk⟩ := nth_of_mem (mem_of_mem_uniqueInts hL)
  exact ⟨k, hk, hfl ▸ lt_length_of_nth hk⟩

/-- Inner assignment loop: every id appended to the ghost log during the loop
is, at its end, still held by some position whose re-clustering label is a
real (non-noise) label. -/
theorem assignFold_log_survive {P : Type} {fl Ls : List Int} {s : TState P}
    (hpw : Ls.Pairwise (· ≠ ·))
    (hmem : ∀ L ∈ Ls, L ≠ -1 → ∃ k, nth fl k = some L ∧ k < s.ids.length) :
    ∀ v ∈ (assignFold fl Ls s).log,
      v ∈ s.log ∨ ∃ k L2, nth (assignFold fl Ls s).ids k = some v ∧
        nth fl k = some L2 ∧ L2 ≠ -1 := by
  induction Ls generalizing s with
  | nil => exact fun v hv => Or.inl hv
  | cons L Ls ih =>
      rw [List.pairwise_cons] at hpw
      rw [assignFold]
      by_cases hL : L = -1
      · simp only [hL, if_true]
        exact ih hpw.2 (fun L' hL' => hmem L' (List.mem_cons.2 (Or.inr hL')))
      · simp only [hL, if_false]
        intro v hv
        have hlen' : (assignNew (labelMask fl L) s).ids.length = s.ids.length :=
          assignNew_ids_length _ _
        have ihr := ih (s := assignNew (labelMask fl L) s) hpw.2
          (fun L' hL' hL'ne => by
            obtain ⟨k, hk1, hk2⟩ := hmem L' (List.mem_cons.2 (Or.inr hL')) hL'ne
            exact ⟨k, hk1, by rwa [hlen']⟩) v hv
        rcases ihr with hv' | hv'
        · rw [assignNew] at hv'
          simp only at hv'
          rcases List.mem_append.1 hv' with hv'' | hv''
          · exact Or.inl hv''
          · have hveq : v = s.next + 1 := by simpa using hv''
            obtain ⟨k0, hfl0, hlt0⟩ := hmem L (List.mem_cons.2 (Or.inl rfl)) hL
            have hmask0 : nth (labelMask fl L) k0 = some true := nth_labelMask_self hfl0
            have hnew : nth (assignNew (labelMask fl L) s).ids k0 = some (s.next + 1) := by
              rw [assignNew]
              exact nth_maskedFill_true hmask0 hlt0
            have hshield : ∀ L' ∈ Ls, L' ≠ -1 → nth fl k0 ≠ some L' := by
              intro L' hL' _ hcontra
              rw [hfl0] at hcontra
              exact hpw.1 L' hL' (Option.some.inj hcontra)
            have hkeep := (assignFold_untouched (s := assignNew (labelMask fl L) s)
              (k := k0) hshield).1
            refine Or.inr ⟨k0, L, ?_, hfl0, hL⟩
            rw [hkeep, hnew, hveq]
        · exact Or.inr hv'

/-- Per-label processing: every freshly logged id survives to its end at a
position whose round label is the processed label. -/
theorem processLabel_log_survive {P : Type} {cfg : Config} {O : Oracles P}
    {xyz : List P} {labels : List Int} {L : Int} {s : TState P}
    (hlen : labels.length = s.ids.length) :
    ∀ v ∈ (processLabel cfg O xyz labels L s).log,
      v ∈ s.log ∨ ∃ k, nth (processLabel cfg O xyz labels L s).ids k = some v ∧
        nth labels k = some L := by
  rw [processLabel]
  split
  · exact fun v hv => Or.inl hv
  · dsimp only
    split
    · exact fun v hv => Or.inl hv
    · intro v hv
      have hres := assignFold_log_survive (uniqueInts_pairwise_ne _)
        (uniqueInts_nth_exists
          (by rw [scatter_length, scatter_length, labelMask, List.length_map]; exact hlen))
        v hv
      rcases hres with hv' | hv'
      · exact Or.inl hv'
      · obtain ⟨k, L2, hidk, hflk, hL2ne⟩ := hv'
        refine Or.inr ⟨k, hidk, ?_⟩
        have h1 : nth (scatter false (labelMask labels L)
            (O.ransacFit (compact xyz (labelMask labels L)))) k = some true := by
          rcases nth_scatter_inv hflk with h' | h'
          · exact absurd h' hL2ne
          · exact h'
        have h2 : nth (labelMask labels L) k = some true := by
          rcases nth_scatter_inv h1 with h' | h'
          · simp at h'
          · exact h'
        exact nth_labelMask_true h2

/-- Per-round label loop: every freshly logged id survives to the end of the
round at some position. -/
theorem roundFold_log_survive {P : Type} {cfg : Config} {O : Oracles P}
    {xyz : List P} {labels Ls : List Int} {s : TState P}
    (hpw : Ls.Pairwise (· ≠ ·)) (hlen : labels.length = s.ids.length) :
    ∀ v ∈ (roundFold cfg O xyz labels Ls s).log,
      v ∈ s.log ∨ ∃ k, nth (roundFold cfg O xyz labels Ls s).ids k = some v := by
  induction Ls generalizing s with
  | nil => exact fun v hv => Or.inl hv
  | cons L Ls ih =>
      rw [List.pairwise_cons] at hpw
      rw [roundFold]
      by_cases hL : L = -1
      · simpa [hL] using ih hpw.2 hlen
      · simp only [hL, if_false]
        intro v hv
        have hlen' : labels.length = (processLabel cfg O xyz labels L s).ids.length := by
          rw [processLabel_ids_length]
          exact hlen
        rcases ih (s := processLabel cfg O xyz labels L s) hpw.2 hlen' v hv with hv' | hv'
        · rcases processLabel_log_survive hlen v hv' with hv'' | hv''
          · exact Or.inl hv''
          · obtain ⟨k, hidk, hlabk⟩ := hv''
            have hshield : ∀ L' ∈ Ls, L' ≠ -1 → nth labels k ≠ some L' := by
              intro L' hL' _ hcontra
              rw [hlabk] at hcontra
              exact hpw.1 L' hL' (Option.some.inj hcontra)
            have hkeep : nth (roundFold cfg O xyz labels Ls
                  (processLabel cfg O xyz labels L s)).ids k =
                nth (processLabel cfg O xyz labels L s).ids k ∧
                nth (roundFold cfg O xyz labels Ls
                  (processLabel cfg O xyz labels L s)).elig k =
                nth (processLabel cfg O xyz labels L s).elig k :=
              roundFold_untouched hshield
            exact Or.inr ⟨k, by rw [hkeep.1]; exact hidk⟩
        · exact Or.inr hv'

/-- One full round: every id handed out during the round is still attached to
some hit position at the end of the round (ids are never removed). -/
theorem stepFn_log_survive {P : Type} {cfg : Config} {O : Oracles P}
    {xyz : List P} {s : TState P} (hs : Sane s) :
    ∀ v ∈ (stepFn cfg O xyz s).log,
      v ∈ s.log ∨ ∃ k, nth (stepFn cfg O xyz s).ids k = some v := by
  intro v hv
  have hlen : (scatter (-1) s.elig (O.dbscanFit (compact xyz s.elig))).length
      = ({ s with calls := s.calls ++ [compact xyz s.elig] } : TState P).ids.length := by
    rw [scatter_length]
    exact hs.2.symm
  have hv' : v ∈ (roundFold cfg O xyz
      (scatter (-1) s.elig (O.dbscanFit (compact xyz s.elig)))
      (uniqueInts (scatter (-1) s.elig (O.dbscanFit (compact xyz s.elig))))
      { s with calls := s.calls ++ [compact xyz s.elig] }).log := hv
  have hres := roundFold_log_survive (uniqueInts_pairwise_ne _) hlen v hv'
  rcases hres with h | h
  · exact Or.inl h
  · obtain ⟨k, hk⟩ := h
    exact Or.inr ⟨k, hk⟩

/-! ## The ghost log is exactly the consecutive sequence 0, 1, …, next -/

/-- `current_track_id` starts at `-1` and the ids handed out so far are exactly
`0, 1, …, current_track_id`, in that order. -/
def LogOK {P : Type} (s : TState P) : Prop :=
  -1 ≤ s.next ∧ s.log = (List.range (s.next + 1).toNat).map Int.ofNat

theorem initEventState_logOK {P : Type} (valid : List Bool) :
    LogOK (initEventState (P := P) valid) := by
  constructor
  · simp [initEventState]
  · simp [initEventState]

theorem assignNew_logOK {P : Type} {m : List Bool} {s : TState P}
    (h : LogOK s) : LogOK (assignNew m s) := by
  obtain ⟨h1, h2⟩ := h
  constructor
  · show -1 ≤ s.next + 1
    omega
  · show s.log ++ [s.next + 1] = (List.range (s.next + 1 + 1).toNat).map Int.ofNat
    have ht : (s.next + 1 + 1).toNat = (s.next + 1).toNat + 1 := by omega
    rw [ht, List.range_succ, List.map_append, ← h2]
    simp only [List.map_cons, List.map_nil]
    have hc : (Int.ofNat ((s.next + 1).toNat)) = s.next + 1 := by
      have h3 := Int.toNat_of_nonneg (a := s.next + 1) (by omega)
      simpa [Int.ofNat_eq_natCast] using h3
    rw [hc]

theorem assignFold_logOK {P : Type} {fl Ls : List Int} {s : TState P}
    (h : LogOK s) : LogOK (assignFold fl Ls s) := by
  induction Ls generalizing s with
  | nil => exact h
  | cons L Ls ih =>
      rw [assignFold]
      by_cases hL : L = -1
      · simpa [hL] using ih h
      · simp only [hL, if_false]
        exact ih (assignNew_logOK h)

theorem processLabel_logOK {P : Type} {cfg : Config} {O : Oracles P}
    {xyz : List P} {labels : List Int} {L : Int} {s : TState P}
    (h : LogOK s) : LogOK (processLabel cfg O xyz labels L s) := by
  rw [processLabel]
  split
  · exact h
  · dsimp only
    split
    · exact ⟨h.1, h.2⟩
    · exact assignFold_logOK ⟨h.1, h.2⟩

theorem roundFold_logOK {P : Type} {cfg : Config} {O : Oracles P}
    {xyz : List P} {labels Ls : List Int} {s : TState P}
    (h : LogOK s) : LogOK (roundFold cfg O xyz labels Ls s) := by
  induction Ls generalizing s with
  | nil => exact h
  | cons L Ls ih =>
      rw [roundFold]
      by_cases hL : L = -1
      · simpa [hL] using ih h
      · simp only [hL, if_false]
        exact ih (processLabel_logOK h)

theorem stepFn_logOK {P : Type} {cfg : Config} {O : Oracles P} {xyz : List P}
    {s : TState P} (h : LogOK s) : LogOK (stepFn cfg O xyz s) :=
  roundFold_logOK ⟨h.1, h.2⟩

theorem runRounds_logOK {P : Type} {cfg : Config} {O : Oracles P} {xyz : List P}
    (fuel : Nat) {s : TState P} (h : LogOK s) :
    LogOK (runRounds cfg O xyz fuel s) := by
  induction fuel generalizing s with
  | zero => exact h
  | succ n ih =>
      rw [runRounds]
      split
      · exact stepFn_logOK h
      · exact ih (stepFn_logOK h)

theorem processEvent_logOK {P : Type} (cfg : Config) (O : Oracles P)
    (xyz : List P) (valid : List Bool) :
    LogOK (processEvent cfg O xyz valid) := by
  rw [processEvent]
  split
  · exact initEventState_logOK valid
  · exact runRounds_logOK _ (initEventState_logOK valid)

/-! ## Bounded iteration -/

/-- `runRounds` executes some number `n ≤ fuel` of rounds; when it stops short
of the fuel bound, the last executed round raised the break flag
(`np.all(track_ids == -1) or not np.any(iter_mask[i])`). -/
theorem runRounds_iterate {P : Type} (cfg : Config) (O : Oracles P)
    (xyz : List P) : ∀ (fuel : Nat) (s : TState P),
    ∃ n, n ≤ fuel ∧ runRounds cfg O xyz fuel s = (stepFn cfg O xyz)^[n] s ∧
      (n = fuel ∨ ∃ m, n = m + 1 ∧
        (stepRound cfg O xyz ((stepFn cfg O xyz)^[m] s)).2 = true) := by
  intro fuel
  induction fuel with
  | zero => exact fun s => ⟨0, le_refl 0, rfl, Or.inl rfl⟩
  | succ n ih =>
      intro s
      by_cases hb : (stepRound cfg O xyz s).2 = true
      · refine ⟨1, by omega, ?_, Or.inr ⟨0, rfl, by simpa using hb⟩⟩
        rw [runRounds]
        simp [hb, stepFn]
      · obtain ⟨n2, hle, heq, hside⟩ := ih (stepFn cfg O xyz s)
        refine ⟨n2 + 1, by omega, ?_, ?_⟩
        · rw [runRounds]
          simp only [hb, if_false]
          rw [Function.iterate_succ_apply]
          exact heq
        · rcases hside with h | ⟨m, hm, hbrk⟩
          · exact Or.inl (by omega)
          · refine Or.inr ⟨m + 1, by omega, ?_⟩
            rw [Function.iterate_succ_apply]
            exact hbrk

/-! ## Row-level plumbing of `find_tracks` -/

theorem find_tracks_ids_nth {cfg : Config} {O : Oracles Point3} {R : GeomRes}
    {hits : List (List Hit)} {t0 : List ℚ} {i : Nat} {hrow : List Hit} {t0i : ℚ}
    (hi : nth hits i = some hrow) (ht : nth t0 i = some t0i) :
    nth (find_tracks cfg O R hits t0).ids i =
      some (processEvent cfg O (hit_xyz R hrow t0i)
        (hrow.map (fun h => !h.idMasked))).ids := by
  have hx : nth (List.zipWith (fun row t => hit_xyz R row t) hits t0) i
      = some (hit_xyz R hrow t0i) := nth_zipWith _ hi ht
  exact nth_zipWith _ hi hx

theorem find_tracks_mask_nth {cfg : Config} {O : Oracles Point3} {R : GeomRes}
    {hits : List (List Hit)} {t0 : List ℚ} {i : Nat} {hrow : List Hit}
    (hi : nth hits i = some hrow) :
    nth (find_tracks cfg O R hits t0).mask i =
      some (hrow.map (fun h => h.idMasked)) := by
  show nth (hits.map (fun row => row.map (fun h => h.idMasked))) i = _
  rw [nth_map, hi]
  rfl

/-! ## Invalid hits keep id -1 -/

theorem runRounds_keeps_invalid {P : Type} {cfg : Config} {O : Oracles P}
    {xyz : List P} (fuel : Nat) {s : TState P} {k : Nat}
    (h1 : nth s.elig k = some false) (h2 : nth s.ids k = some (-1)) :
    nth (runRounds cfg O xyz fuel s).ids k = some (-1) := by
  induction fuel generalizing s with
  | zero => exact h2
  | succ n ih =>
      have hu : nth (stepFn cfg O xyz s).ids k = nth s.ids k ∧
          nth (stepFn cfg O xyz s).elig k = nth s.elig k :=
        stepFn_untouched (Or.inl h1)
      rw [runRounds]
      split
      · show nth (stepFn cfg O xyz s).ids k = some (-1)
        rw [hu.1]
        exact h2
      · show nth (runRounds cfg O xyz n (stepFn cfg O xyz s)).ids k = some (-1)
        exact ih (by rw [hu.2]; exact h1) (by rw [hu.1]; exact h2)

theorem processEvent_invalid {P : Type} {cfg : Config} {O : Oracles P}
    {xyz : List P} {valid : List Bool} {k : Nat}
    (hk : nth valid k = some false) :
    nth (processEvent cfg O xyz valid).ids k = some (-1) := by
  have hids : nth ((initEventState (P := P) valid).ids) k = some (-1) := by
    show nth (valid.map (fun _ => (-1 : Int))) k = some (-1)
    rw [nth_map, hk]
    rfl
  rw [processEvent]
  split
  · exact hids
  · exact runRounds_keeps_invalid _ hk hids

theorem stepFn_change_from_unassigned {P : Type} {cfg : Config} {O : Oracles P}
    {xyz : List P} {s : TState P} {k : Nat} {v w : Int} (hs : Sane s)
    (hv : nth s.ids k = some v) (hw : nth (stepFn cfg O xyz s).ids k = some w)
    (hne : v ≠ w) : v = -1 := by
  by_contra hvne
  have h : nth (stepFn cfg O xyz s).ids k = some v :=
    stepFn_preserves_assigned hs hv hvne
  exact hne (Option.some.inj (h.symm.trans hw))

/-! ## Claim theorems -/

/-- C1: the track-id assignment maps each hit position to a single value; an
id assigned to a hit is never changed or removed afterwards.  Concretely: the
initial per-event state satisfies the reachable-state invariant `Sane`, every
round preserves it, and from any `Sane` state (i) an assigned id survives any
number of further rounds unchanged (and is the unique value there), (ii) a
round can only change a position whose id was the unassigned sentinel `-1`,
and (iii) every id handed out during a round is still attached to some hit
position at the end of the round, so no assignment is ever overwritten. -/
theorem find_tracks_assignment_immutable (P : Type) (cfg : Config)
    (O : Oracles P) (xyz : List P) :
    (∀ valid : List Bool, Sane (initEventState (P := P) valid))
    ∧ (∀ s : TState P, Sane s → Sane (stepFn cfg O xyz s))
    ∧ (∀ (s : TState P) (fuel k : Nat) (v : Int), Sane s →
        nth s.ids k = some v → v ≠ -1 →
        nth (runRounds cfg O xyz fuel s).ids k = some v ∧
        ∀ w, nth (runRounds cfg O xyz fuel s).ids k = some w → w = v)
    ∧ (∀ (s : TState P) (k : Nat) (v w : Int), Sane s → nth s.ids k = some v →
        nth (stepFn cfg O xyz s).ids k = some w → v ≠ w → v = -1)
    ∧ (∀ (s : TState P) (v : Int), Sane s → v ∈ (stepFn cfg O xyz s).log →
        v ∈ s.log ∨ ∃ k, nth (stepFn cfg O xyz s).ids k = some v) := by
  refine ⟨initEventState_sane, fun s hs => stepFn_sane hs, ?_, ?_, ?_⟩
  · intro s fuel k v hs hv hne
    have h : nth (runRounds cfg O xyz fuel s).ids k = some v :=
      runRounds_preserves_assigned fuel hs hv hne
    exact ⟨h, fun w hw => Option.some.inj (hw.symm.trans h)⟩
  · intro s k v w hs hv hw hne
    exact stepFn_change_from_unassigned hs hv hw hne
  · intro s v hs hv
    exact stepFn_log_survive hs v hv

theorem find_tracks_assignment_immutable_witness :
    nth (runRounds (⟨25, 5, 2, 8, 100, 100⟩ : Config)
      (⟨fun l => l.map (fun _ => -1), fun l => l.map (fun _ => true)⟩ : Oracles Bool)
      ([] : List Bool) 3
      (⟨[5], [false], 5, [0, 1, 2, 3, 4, 5], [], []⟩ : TState Bool)).ids 0 = some 5 :=
  ((find_tracks_assignment_immutable Bool ⟨25, 5, 2, 8, 100, 100⟩
      ⟨fun l => l.map (fun _ => -1), fun l => l.map (fun _ => true)⟩ []).2.2.1
    ⟨[5], [false], 5, [0, 1, 2, 3, 4, 5], [], []⟩ 3 0 5
    ⟨fun k v _ _ => by cases k <;> simp, by decide⟩ rfl (by decide)).1

/-- C2: within one event the ids handed out form exactly the sequence
`0, 1, …, current_track_id` in handout order (ghost `log`); in particular the
sequence is strictly increasing, starts at 0, and no id is ever reused. -/
theorem find_tracks_ids_monotone (P : Type) (cfg : Config) (O : Oracles P)
    (xyz : List P) (valid : List Bool) :
    (processEvent cfg O xyz valid).log =
      (List.range ((processEvent cfg O xyz valid).next + 1).toNat).map Int.ofNat
    ∧ (processEvent cfg O xyz valid).log.Pairwise (· < ·) := by
  have h := processEvent_logOK cfg O xyz valid
  refine ⟨h.2, ?_⟩
  rw [h.2]
  exact List.Pairwise.map Int.ofNat (fun a b hab => Int.ofNat_lt.2 hab)
    (List.pairwise_lt_range _)

/-- C3: the per-event loop executes at most `fuel = max_iterations` rounds,
breaking early exactly when the round's break test (all labels noise, or no
eligible hits left) fires; it always returns a state (total function), and a
hit whose id stayed `-1` is a member of no track in `calc_tracks`
(its `memberMask` entry is never `true` for any candidate id `j ≥ 0`). -/
theorem find_tracks_terminates (P : Type) (cfg : Config) (O : Oracles P)
    (xyz : List P) :
    (∀ (fuel : Nat) (s : TState P), ∃ n, n ≤ fuel ∧
        runRounds cfg O xyz fuel s = (stepFn cfg O xyz)^[n] s ∧
        (n = fuel ∨ ∃ m, n = m + 1 ∧
          (stepRound cfg O xyz ((stepFn cfg O xyz)^[m] s)).2 = true))
    ∧ (∀ (j : Nat) (trow : List Int) (mrow hmrow : List Bool) (k : Nat),
        nth trow k = some (-1) →
        nth (memberMask (Int.ofNat j) trow mrow hmrow) k ≠ some true) := by
  refine ⟨runRounds_iterate cfg O xyz, ?_⟩
  intro j trow mrow hmrow k hk hcontra
  obtain ⟨a, b, ha, hb, hf⟩ := nth_zipWith_inv hcontra
  have ha' : nth (List.zipWith Prod.mk trow mrow) k = some a := ha
  obtain ⟨t, m, htr, hmr, hab⟩ := nth_zipWith_inv ha'
  subst hab
  rw [htr] at hk
  have ht : t = -1 := Option.some.inj hk
  subst ht
  simp at hf

theorem find_tracks_terminates_witness :
    nth (memberMask (Int.ofNat 0) [-1] [false] [false]) 0 ≠ some true :=
  (find_tracks_terminates Bool ⟨25, 5, 2, 8, 100, 100⟩
    ⟨fun l => l.map (fun _ => -1), fun l => l.map (fun _ => true)⟩ []).2
    0 [-1] [false] [false] 0 rfl

/-- C4: the geometry projection keeps the hit's local x, y and computes z by
the geometry lookup at
`drift_distance = (hit.ts - t0.ts) * drift_velocity * tick_duration`. -/
theorem hit_xyz_projection (R : GeomRes) (row : List Hit) (t0ts : ℚ)
    (k : Nat) (h : Hit) (hk : nth row k = some h) :
    nth (hit_xyz R row t0ts) k = some
      { x := h.px, y := h.py,
        z := R.get_z_coordinate h.iogroup h.iochannel
          ((h.ts - t0ts) * R.v_drift * R.crs_ticks) } := by
  rw [hit_xyz, nth_map, hk]
  dsimp only [Option.map]
  rw [← mul_assoc]

theorem hit_xyz_projection_witness :
    nth (hit_xyz (⟨2, 3, fun _ _ d => d⟩ : GeomRes)
      [(⟨false, 10, 1, 0, 0, 4, 5⟩ : Hit)] 7) 0 =
      some (⟨4, 5, ((10 : ℚ) - 7) * 2 * 3⟩ : Point3) :=
  hit_xyz_projection ⟨2, 3, fun _ _ d => d⟩ [⟨false, 10, 1, 0, 0, 4, 5⟩] 7 0
    ⟨false, 10, 1, 0, 0, 4, 5⟩ rfl

/-- C10: a hit whose validity flag is unset (`hits['id'].mask` true) keeps
track id `-1` in the array returned by `find_tracks`, and its entry of the
returned mask is `true`, for any configuration and any oracle behaviour. -/
theorem find_tracks_invalid_masked (cfg : Config) (O : Oracles Point3)
    (R : GeomRes) (hits : List (List Hit)) (t0 : List ℚ) (i k : Nat)
    (hrow : List Hit) (t0i : ℚ) (h : Hit)
    (hi : nth hits i = some hrow) (ht : nth t0 i = some t0i)
    (hk : nth hrow k = some h) (hm : h.idMasked = true) :
    ((nth (find_tracks cfg O R hits t0).ids i).bind (fun row => nth row k)
      = some (-1))
    ∧ ((nth (find_tracks cfg O R hits t0).mask i).bind (fun row => nth row k)
      = some true) := by
  constructor
  · rw [find_tracks_ids_nth hi ht]
    show nth (processEvent cfg O (hit_xyz R hrow t0i)
      (hrow.map (fun h => !h.idMasked))).ids k = some (-1)
    apply processEvent_invalid
    rw [nth_map, hk]
    simp [hm]
  · rw [find_tracks_mask_nth hi]
    show nth (hrow.map (fun h => h.idMasked)) k = some true
    rw [nth_map, hk]
    simp [hm]

theorem find_tracks_invalid_masked_witness :
    ((nth (find_tracks ⟨25, 5, 2, 8, 100, 100⟩
        ⟨fun l => l.map (fun _ => -1), fun l => l.map (fun _ => true)⟩
        ⟨1, 1, fun _ _ d => d⟩
        [[⟨true, 0, 0, 0, 0, 0, 0⟩]] [0]).ids 0).bind (fun row => nth row 0)
      = some (-1))
    ∧ ((nth (find_tracks ⟨25, 5, 2, 8, 100, 100⟩
        ⟨fun l => l.map (fun _ => -1), fun l => l.map (fun _ => true)⟩
        ⟨1, 1, fun _ _ d => d⟩
        [[⟨true, 0, 0, 0, 0, 0, 0⟩]] [0]).mask 0).bind (fun row => nth row 0)
      = some true) :=
  find_tracks_invalid_masked ⟨25, 5, 2, 8, 100, 100⟩
    ⟨fun l => l.map (fun _ => -1), fun l => l.map (fun _ => true)⟩
    ⟨1, 1, fun _ _ d => d⟩ [[⟨true, 0, 0, 0, 0, 0, 0⟩]] [0] 0 0
    [⟨true, 0, 0, 0, 0, 0, 0⟩] 0 ⟨true, 0, 0, 0, 0, 0, 0⟩ rfl rfl rfl rfl

/-! ## RANSAC gating (C5) -/

theorem processLabel_rcalls_char {P : Type} {cfg : Config} {O : Oracles P}
    {xyz : List P} {labels : List Int} {L : Int} {s : TState P} :
    ∀ c ∈ (processLabel cfg O xyz labels L s).rcalls,
      c ∈ s.rcalls ∨ cfg.ransacMinSamples < countTrue (labelMask labels L) := by
  rw [processLabel]
  split
  · exact fun c hc => Or.inl hc
  · rename_i hbig
    dsimp only
    split
    · intro c hc
      have hc' : c ∈ s.rcalls ++ [compact xyz (labelMask labels L)] := hc
      rcases List.mem_append.1 hc' with h | h
      · exact Or.inl h
      · exact Or.inr (by omega)
    · intro c hc
      rw [assignFold_rcalls] at hc
      have hc' : c ∈ s.rcalls ++ [compact xyz (labelMask labels L)] := hc
      rcases List.mem_append.1 hc' with h | h
      · exact Or.inl h
      · exact Or.inr (by omega)

theorem roundFold_rcalls_char {P : Type} {cfg : Config} {O : Oracles P}
    {xyz : List P} {labels Ls : List Int} {s : TState P} :
    ∀ c ∈ (roundFold cfg O xyz labels Ls s).rcalls,
      c ∈ s.rcalls ∨ ∃ L, L ≠ -1 ∧
        cfg.ransacMinSamples < countTrue (labelMask labels L) := by
  induction Ls generalizing s with
  | nil => exact fun c hc => Or.inl hc
  | cons L Ls ih =>
      rw [roundFold]
      by_cases hL : L = -1
      · simpa [hL] using fun c hc => ih c hc
      · simp only [hL, if_false]
        intro c hc
        rcases ih c hc with h | h
        · rcases processLabel_rcalls_char c h with h2 | h2
          · exact Or.inl h2
          · exact Or.inr ⟨L, hL, h2⟩
        · exact Or.inr h

theorem stepRound_rcalls_char {P : Type} {cfg : Config} {O : Oracles P}
    {xyz : List P} {s : TState P} :
    ∀ c ∈ (stepRound cfg O xyz s).1.rcalls,
      c ∈ s.rcalls ∨ ∃ L, L ≠ -1 ∧
        cfg.ransacMinSamples < countTrue (labelMask (roundLabels O xyz s) L) := by
  intro c hc
  have hc' : c ∈ (roundFold cfg O xyz (roundLabels O xyz s)
      (uniqueInts (roundLabels O xyz s))
      { s with calls := s.calls ++ [compact xyz s.elig] }).rcalls := hc
  have h := roundFold_rcalls_char c hc'
  exact h

/-- C5: in each round the Robust Line Fitter is gated: (i) a cluster whose
size is at most `ransac_min_samples` is skipped entirely (state unchanged,
hits still eligible, no RANSAC call recorded); (ii) when the RANSAC inlier
mask comes back empty the cluster is discarded without any assignment (ids,
eligibility, id counter, handout log and clustering-call log all unchanged);
(iii) every RANSAC invocation a round records was made on a cluster of some
non-noise label whose size strictly exceeds `ransac_min_samples`. -/
theorem ransac_gating (P : Type) (cfg : Config) (O : Oracles P) (xyz : List P) :
    (∀ (labels : List Int) (L : Int) (s : TState P),
        countTrue (labelMask labels L) ≤ cfg.ransacMinSamples →
        processLabel cfg O xyz labels L s = s)
    ∧ (∀ (labels : List Int) (L : Int) (s : TState P),
        countTrue (scatter false (labelMask labels L)
          (O.ransacFit (compact xyz (labelMask labels L)))) = 0 →
        (processLabel cfg O xyz labels L s).ids = s.ids ∧
        (processLabel cfg O xyz labels L s).elig = s.elig ∧
        (processLabel cfg O xyz labels L s).next = s.next ∧
        (processLabel cfg O xyz labels L s).log = s.log ∧
        (processLabel cfg O xyz labels L s).calls = s.calls)
    ∧ (∀ (s : TState P) (c : List P), c ∈ (stepRound cfg O xyz s).1.rcalls →
        c ∈ s.rcalls ∨ ∃ L, L ≠ -1 ∧
          cfg.ransacMinSamples < countTrue (labelMask (roundLabels O xyz s) L)) := by
  refine ⟨?_, ?_, fun s c hc => stepRound_rcalls_char c hc⟩
  · intro labels L s h
    rw [processLabel, if_pos h]
  · intro labels L s h
    rw [processLabel]
    split
    · exact ⟨rfl, rfl, rfl, rfl, rfl⟩
    · dsimp only
      rw [if_pos (by omega : countTrue (scatter false (labelMask labels L)
          (O.ransacFit (compact xyz (labelMask labels L)))) < 1)]
      exact ⟨rfl, rfl, rfl, rfl, rfl⟩

theorem ransac_gating_witness :
    processLabel (⟨25, 5, 2, 8, 100, 100⟩ : Config)
      (⟨fun l => l.map (fun _ => -1), fun l => l.map (fun _ => true)⟩ : Oracles Bool)
      [] [0] 0 (⟨[-1], [true], -1, [], [], []⟩ : TState Bool) =
      (⟨[-1], [true], -1, [], [], []⟩ : TState Bool) :=
  (ransac_gating Bool ⟨25, 5, 2, 8, 100, 100⟩
    ⟨fun l => l.map (fun _ => -1), fun l => l.map (fun _ => true)⟩ []).1
    [0] 0 ⟨[-1], [true], -1, [], [], []⟩ (by decide)

/-! ## Track records need at least two member hits (C6) -/

theorem countTrue_and_not_le (j : Int) (ps : List (Int × Bool)) (hm : List Bool) :
    countTrue (List.zipWith (fun t m => (t.1 == j && !t.2) && !m) ps hm) ≤
      countTrue (hm.map (fun b => !b)) := by
  induction ps generalizing hm with
  | nil => simp
  | cons p ps ih =>
      cases hm with
      | nil => simp
      | cons m hm =>
          have h := ih hm
          cases m <;> cases hcond : ((p.1 == j && !p.2) : Bool) <;>
            simp [hcond, countTrue_cons] <;> omega

theorem mkTrack_some_nhit {C : CalcOracles} {hrow : List Hit} {xrow : List Point3}
    {trow : List Int} {mrow : List Bool} {j : Nat} {tr : Track}
    (h : mkTrack C hrow xrow trow mrow j = some tr) : 2 ≤ tr.nhit := by
  rw [mkTrack] at h
  dsimp only at h
  split at h
  · exact absurd h (by simp)
  · rename_i hge
    have htr := Option.some.inj h
    rw [← htr]
    dsimp only
    omega

theorem mkTrack_none_of_few {C : CalcOracles} {hrow : List Hit}
    {xrow : List Point3} {trow : List Int} {mrow : List Bool} {j : Nat}
    (h : countTrue (hrow.map (fun x => !x.idMasked)) ≤ 1) :
    mkTrack C hrow xrow trow mrow j = none := by
  have h1 : countTrue (memberMask (Int.ofNat j) trow mrow
      (hrow.map (fun x => x.idMasked))) ≤
      countTrue ((hrow.map (fun x => x.idMasked)).map (fun b => !b)) :=
    countTrue_and_not_le _ _ _
  have h2 : (hrow.map (fun x => x.idMasked)).map (fun b => !b) =
      hrow.map (fun x => !x.idMasked) := by
    rw [List.map_map]
    rfl
  rw [h2] at h1
  rw [mkTrack]
  dsimp only
  rw [if_pos (by omega)]

/-- C6: every unmasked record of `calc_tracks` has `nhit ≥ 2` (slots whose
member set has fewer than two valid hits are left masked, modelled as `none`),
and an event with at most one valid hit — in particular exactly one, or none —
yields only masked slots, i.e. zero tracks. -/
theorem tracks_min_nhit (C : CalcOracles) (R : GeomRes) (hits : List (List Hit))
    (t0 : List ℚ) (tids : List (List Int)) (tmask : List (List Bool)) :
    (∀ (i j : Nat) (tr : Track),
        (nth (calc_tracks C R hits t0 tids tmask) i).bind (fun row => nth row j)
          = some (some tr) → 2 ≤ tr.nhit)
    ∧ (∀ (i j : Nat) (ht : List Hit × ℚ) (x : Option Track),
        nth (hits.zip t0) i = some ht →
        countTrue (ht.1.map (fun h => !h.idMasked)) ≤ 1 →
        (nth (calc_tracks C R hits t0 tids tmask) i).bind (fun row => nth row j)
          = some x → x = none) := by
  constructor
  · intro i j tr h
    cases hrow : nth (calc_tracks C R hits t0 tids tmask) i with
    | none => rw [hrow] at h; simp at h
    | some row =>
        rw [hrow] at h
        simp only [Option.some_bind] at h
        obtain ⟨ht, tm, hht, htm, hroweq⟩ := nth_zipWith_inv hrow
        subst hroweq
        rw [nth_map] at h
        obtain ⟨j2, hj2, hmk⟩ := Option.map_eq_some'.1 h
        exact mkTrack_some_nhit hmk
  · intro i j ht x hht hfew h
    cases hrow : nth (calc_tracks C R hits t0 tids tmask) i with
    | none => rw [hrow] at h; simp at h
    | some row =>
        rw [hrow] at h
        simp only [Option.some_bind] at h
        obtain ⟨ht2, tm, hht2, htm, hroweq⟩ := nth_zipWith_inv hrow
        have hhteq : ht2 = ht := Option.some.inj (hht2.symm.trans hht)
        subst hhteq
        subst hroweq
        rw [nth_map] at h
        obtain ⟨j2, hj2, hmk⟩ := Option.map_eq_some'.1 h
        rw [mkTrack_none_of_few hfew] at hmk
        exact hmk.symm

theorem tracks_min_nhit_witness :
    countTrue ([(⟨false, 0, 0, 0, 0, 0, 0⟩ : Hit)].map (fun h => !h.idMasked)) ≤ 1 ∧
    (none : Option Track) = none :=
  ⟨by decide,
    (tracks_min_nhit (⟨fun _ => ⟨1, 0, 0⟩, fun _ _ => 0, fun _ => 0⟩ : CalcOracles)
      (⟨1, 1, fun _ _ d => d⟩ : GeomRes)
      [[⟨false, 0, 0, 0, 0, 0, 0⟩]] [0] [[0]] [[false]]).2
      0 0 ([⟨false, 0, 0, 0, 0, 0, 0⟩], 0) none rfl (by decide) (by decide)⟩

/-- C7: the plane-intersection parameters: when `axis.z ≠ 0`, `xyp` returns
the (x, y) of the point `centroid + s * axis` with `s = -centroid.z / axis.z`,
and that point lies on the plane z = 0; when `axis.z = 0` it returns the
centroid's (x, y) by convention. -/
theorem xyp_plane_intersection (axis centroid : Point3) :
    (axis.z ≠ 0 →
        xyp axis centroid =
          (centroid.x + axis.x * (-centroid.z / axis.z),
           centroid.y + axis.y * (-centroid.z / axis.z)) ∧
        centroid.z + axis.z * (-centroid.z / axis.z) = 0)
    ∧ (axis.z = 0 → xyp axis centroid = (centroid.x, centroid.y)) := by
  constructor
  · intro hz
    constructor
    · rw [xyp, if_neg hz]
    · field_simp
      ring
  · intro hz
    rw [xyp, if_pos hz]

theorem xyp_plane_intersection_witness :
    xyp (⟨1, 2, 3⟩ : Point3) (⟨4, 5, 6⟩ : Point3) =
      ((4 : ℚ) + 1 * (-6 / 3), (5 : ℚ) + 2 * (-6 / 3)) ∧
    (6 : ℚ) + 3 * (-6 / 3) = 0 :=
  (xyp_plane_intersection ⟨1, 2, 3⟩ ⟨4, 5, 6⟩).1 (by norm_num)

/-- C8: the reconstruction is a deterministic function of the hits, t0, the
configuration, the geometry resources and the library behaviours: two runs
whose clustering, RANSAC sampling (i.e. the random source, fixed by a seed),
PCA, arctangent and square-root behave pointwise identically produce identical
track ids, identical hit-to-track assignments and identical track records. -/
theorem reconstruction_deterministic (cfg : Config) (A B : Oracles Point3)
    (C D : CalcOracles) (R : GeomRes) (hits : List (List Hit)) (t0 : List ℚ)
    (hd : ∀ l, A.dbscanFit l = B.dbscanFit l)
    (hr : ∀ l, A.ransacFit l = B.ransacFit l)
    (hp : ∀ l, C.pcaAxis l = D.pcaAxis l)
    (ha : ∀ a b, C.atan2q a b = D.atan2q a b)
    (hs : ∀ a, C.sqrtq a = D.sqrtq a) :
    reconstruct cfg A C R hits t0 = reconstruct cfg B D R hits t0 := by
  have hAB : A = B := by
    cases A
    cases B
    congr 1
    · funext l
      exact hd l
    · funext l
      exact hr l
  have hCD : C = D := by
    cases C
    cases D
    congr 1
    · funext l
      exact hp l
    · funext a b
      exact ha a b
    · funext a
      exact hs a
  rw [hAB, hCD]

theorem reconstruction_deterministic_witness :
    reconstruct (⟨25, 5, 2, 8, 100, 100⟩ : Config)
      (⟨fun l => l.map (fun _ => -1), fun l => l.map (fun _ => true)⟩ : Oracles Point3)
      (⟨fun _ => ⟨1, 0, 0⟩, fun _ _ => 0, fun _ => 0⟩ : CalcOracles)
      (⟨1, 1, fun _ _ d => d⟩ : GeomRes) [] [] =
    reconstruct ⟨25, 5, 2, 8, 100, 100⟩
      ⟨fun l => l.map (fun _ => -1), fun l => l.map (fun _ => true)⟩
      ⟨fun _ => ⟨1, 0, 0⟩, fun _ _ => 0, fun _ => 0⟩
      ⟨1, 1, fun _ _ d => d⟩ [] [] :=
  reconstruction_deterministic ⟨25, 5, 2, 8, 100, 100⟩
    ⟨fun l => l.map (fun _ => -1), fun l => l.map (fun _ => true)⟩
    ⟨fun l => l.map (fun _ => -1), fun l => l.map (fun _ => true)⟩
    ⟨fun _ => ⟨1, 0, 0⟩, fun _ _ => 0, fun _ => 0⟩
    ⟨fun _ => ⟨1, 0, 0⟩, fun _ _ => 0, fun _ => 0⟩
    ⟨1, 1, fun _ _ d => d⟩ [] []
    (fun _ => rfl) (fun _ => rfl) (fun _ => rfl) (fun _ _ => rfl) (fun _ => rfl)

/-! ## What reaches the Cluster Engine (C9) -/

theorem processLabel_calls_mono {P : Type} {cfg : Config} {O : Oracles P}
    {xyz : List P} {labels : List Int} {L : Int} {s : TState P} {c : List P}
    (h : c ∈ s.calls) : c ∈ (processLabel cfg O xyz labels L s).calls := by
  rw [processLabel]
  split
  · exact h
  · dsimp only
    split
    · exact h
    · rw [assignFold_calls]
      exact List.mem_append_left _ h

theorem roundFold_calls_mono {P : Type} {cfg : Config} {O : Oracles P}
    {xyz : List P} {labels Ls : List Int} {s : TState P} {c : List P}
    (h : c ∈ s.calls) : c ∈ (roundFold cfg O xyz labels Ls s).calls := by
  induction Ls generalizing s with
  | nil => exact h
  | cons L Ls ih =>
      rw [roundFold]
      by_cases hL : L = -1
      · simpa [hL] using ih h
      · simp only [hL, if_false]
        exact ih (processLabel_calls_mono h)

theorem stepFn_calls_mono {P : Type} {cfg : Config} {O : Oracles P}
    {xyz : List P} {s : TState P} {c : List P}
    (h : c ∈ s.calls ++ [compact xyz s.elig]) :
    c ∈ (stepFn cfg O xyz s).calls := by
  have h' : c ∈ ({ s with calls := s.calls ++ [compact xyz s.elig] } :
      TState P).calls := h
  show c ∈ (roundFold cfg O xyz
    (scatter (-1) s.elig (O.dbscanFit (compact xyz s.elig)))
    (uniqueInts (scatter (-1) s.elig (O.dbscanFit (compact xyz s.elig))))
    { s with calls := s.calls ++ [compact xyz s.elig] }).calls
  exact roundFold_calls_mono h'

theorem runRounds_calls_mono {P : Type} {cfg : Config} {O : Oracles P}
    {xyz : List P} (fuel : Nat) {s : TState P} {c : List P}
    (h : c ∈ s.calls) : c ∈ (runRounds cfg O xyz fuel s).calls := by
  induction fuel generalizing s with
  | zero => exact h
  | succ n ih =>
      rw [runRounds]
      split
      · exact stepFn_calls_mono (List.mem_append_left _ h)
      · show c ∈ (runRounds cfg O xyz n (stepFn cfg O xyz s)).calls
        exact ih (stepFn_calls_mono (List.mem_append_left _ h))

/-- As soon as one round runs, the set of points handed to `dbscan.fit` in the
first round is exactly `xyz[iter_mask]`, the projected points of all eligible
(valid) hits — recorded in the ghost `calls`. -/
theorem processEvent_first_call {P : Type} {cfg : Config} {O : Oracles P}
    {xyz : List P} {valid : List Bool}
    (hne : ¬ (valid.all (fun b => !b)) = true) (hpos : 0 < cfg.maxIterations) :
    compact xyz valid ∈ (processEvent cfg O xyz valid).calls := by
  rw [processEvent]
  rw [if_neg hne]
  obtain ⟨m, hm⟩ : ∃ m, cfg.maxIterations = m + 1 :=
    ⟨cfg.maxIterations - 1, by omega⟩
  rw [hm, runRounds]
  have hmem : compact xyz valid ∈
      (stepFn cfg O xyz (initEventState (P := P) valid)).calls := by
    apply stepFn_calls_mono
    show compact xyz valid ∈
      ([] : List (List P)) ++ [compact xyz valid]
    simp
  split
  · exact hmem
  · exact runRounds_calls_mono _ hmem

/-- C9 (amended): `find_tracks` performs no finiteness validation.  The
points handed to the Cluster Engine are selected by the eligibility mask
alone, so the projected point of every valid hit — finite or not — is passed
to the clustering library in the first round. -/
theorem extractor_passes_all_valid_points (P : Type) (cfg : Config)
    (O : Oracles P) (xyz : List P) (valid : List Bool) (k : Nat) (p : P)
    (hv : nth valid k = some true) (hx : nth xyz k = some p)
    (hpos : 0 < cfg.maxIterations) :
    ∃ c ∈ (processEvent cfg O xyz valid).calls, p ∈ c := by
  have hne : ¬ (valid.all (fun b => !b)) = true := by
    intro hall
    have := List.all_eq_true.1 hall _ (mem_of_nth hv)
    simp at this
  exact ⟨compact xyz valid, processEvent_first_call hne hpos,
    mem_compact_of_nth hx hv⟩

theorem extractor_passes_all_valid_points_witness :
    ∃ c ∈ (processEvent (⟨25, 5, 2, 8, 100, 1⟩ : Config)
      (⟨fun l => l.map (fun _ => -1), fun l => l.map (fun _ => true)⟩ :
        Oracles ProjPoint)
      [ProjPoint.nonFinPt] [true]).calls, ProjPoint.nonFinPt ∈ c :=
  extractor_passes_all_valid_points ProjPoint ⟨25, 5, 2, 8, 100, 1⟩
    ⟨fun l => l.map (fun _ => -1), fun l => l.map (fun _ => true)⟩
    [ProjPoint.nonFinPt] [true] 0 ProjPoint.nonFinPt rfl rfl (by decide)

/-- C9 counterexample to the claim as stated: a valid hit whose projected
point is non-finite is *not* rejected — the Track Extractor passes exactly
that point to the Cluster Engine (the recorded `dbscan.fit` argument list of
the run is `[[nonFinPt]]`). -/
theorem nonfinite_point_reaches_cluster_engine :
    ProjPoint.nonFinPt ∈ ((processEvent (⟨25, 5, 2, 8, 100, 1⟩ : Config)
        (⟨fun l => l.map (fun _ => -1), fun l => l.map (fun _ => true)⟩ :
          Oracles ProjPoint)
        [ProjPoint.nonFinPt] [true]).calls.flatten)
    ∧ (processEvent (⟨25, 5, 2, 8, 100, 1⟩ : Config)
        (⟨fun l => l.map (fun _ => -1), fun l => l.map (fun _ => true)⟩ :
          Oracles ProjPoint)
        [ProjPoint.nonFinPt] [true]).calls = [[ProjPoint.nonFinPt]] := by
  constructor
  · decide
  · decide

end TrackletReco
